import Mathlib

/-!
Verification development for the artifact-store / HDFS synchronization engine
of `cerebro/storage/hdfs.py` (class `HDFSStore`).

Python strings are modelled as `List Char` (`PyStr`); Python dicts keyed by
strings as functions `PyStr → Option Int`; the stateful closure of `sync_fn`
as explicit state passing; the remote connection (`pa.hdfs.connect`) as a
counter of connections made (`ConnLog`), each connection yielding a fresh
handle id.  Fallible operations return `Except` / an `Option` failure field.

All definitions are computable so that concrete scenarios evaluate by
`decide` / `rfl`.
-/

/-- Python `str`, modelled as a list of characters. -/
abbrev PyStr := List Char

/-- `os.path.join(a, b)` for POSIX paths (the only form `hdfs.py` uses:
exactly two arguments).  From CPython `posixpath.join`: if `b` starts with
the separator the result is `b`; else if `a` is empty or ends with the
separator the result is `a ++ b`; else `a ++ "/" ++ b`. -/
def osPathJoin (a b : PyStr) : PyStr :=
  if b.head? = some '/' then b
  else if a = [] ∨ a.getLast? = some '/' then a ++ b
  else a ++ '/' :: b

/-! ## URL parsing (`HDFSStore.parse_url`, hdfs.py lines 51 and 73-84)

The source matches `URL_PATTERN = '^(?:(.+://))?(?:([^/:]+))?(?:[:]([0-9]+))?(?:(.+))?$'`
with `re.search`.  Because every group of the pattern is optional and the
final group `(.+)?` accepts any non-empty remainder, the tail of the pattern
can never fail on a newline-free input; hence the greedy backtracking
semantics reduce to:

* group 1 (`(.+://)?`): the text up to and including the **last** occurrence
  of `"://"` that has at least one character before it; absent otherwise;
* group 2 (`([^/:]+)?`): the maximal following run of characters other than
  `'/'` and `':'`; absent if that run is empty;
* group 3 (`(?:[:]([0-9]+))?`): a literal `':'` followed by a maximal
  non-empty digit run; absent otherwise;
* group 4 (`(.+)?`): the remainder, absent if empty.  `match.start(4)` is
  the index where the remainder begins, and `-1` when group 4 is absent.

The embedding below implements exactly that.  (`.` in the pattern excludes
newlines; location strings contain none, and theorems about the parser carry
a newline-freedom hypothesis where they quantify over all strings.) -/

/-- The three-character separator `"://"` of `URL_PATTERN`'s first group. -/
def SEP : PyStr := [':', '/', '/']

/-- `isSepAt s k`: the substring `"://"` occurs in `s` at index `k`. -/
def isSepAt (s : PyStr) (k : Nat) : Bool :=
  decide ((s.drop k).take 3 = SEP)

/-- All indices `k ≥ 1` at which `"://"` occurs in `s` (candidates for the
end of the greedy `.+` of group 1), in increasing order. -/
def sepPositions (s : PyStr) : List Nat :=
  (List.range s.length).filter (fun k => decide (1 ≤ k) && isSepAt s k)

/-- End index of group 1 (`(.+://)?`): one past the last `"://"` occurrence
preceded by at least one character, or `0` when the group is absent. -/
def schemeEnd (s : PyStr) : Nat :=
  match (sepPositions s).getLast? with
  | some k => k + 3
  | none => 0

/-- Characters admissible in group 2's character class `[^/:]`. -/
def hostChar (c : Char) : Bool :=
  c != '/' && c != ':'

/-- End index of group 2 (`([^/:]+)?`) when it starts at `i`. -/
def hostEnd (s : PyStr) (i : Nat) : Nat :=
  i + ((s.drop i).takeWhile hostChar).length

/-- The digit run of group 3 (`(?:[:]([0-9]+))?`) when the group starts at
`j`; `none` when the group is absent. -/
def portDigits (s : PyStr) (j : Nat) : Option PyStr :=
  match s.drop j with
  | ':' :: t =>
    let ds := t.takeWhile Char.isDigit
    if ds = [] then none else some ds
  | _ => none

/-- End index of the optional `:port` segment when it starts at `j`. -/
def portEnd (s : PyStr) (j : Nat) : Nat :=
  match portDigits s j with
  | some ds => j + 1 + ds.length
  | none => j

/-- Python `int` of a non-empty decimal digit string. -/
def digitsToNat (ds : PyStr) : Nat :=
  ds.foldl (fun n c => n * 10 + (c.toNat - '0'.toNat)) 0

/-- Result of `HDFSStore.parse_url`: the four groups of `URL_PATTERN`
(`prefix`, `host`, `port`, `path`) plus `match.start(4)`. -/
structure ParseResult where
  pfx : Option PyStr
  host : Option PyStr
  port : Option Nat
  path : Option PyStr
  pathOffset : Int
deriving DecidableEq, Repr

/-- `HDFSStore.parse_url` (hdfs.py lines 73-84). -/
def parse_url (s : PyStr) : ParseResult :=
  let i := schemeEnd s
  let j := hostEnd s i
  let m := portEnd s j
  { pfx := if i = 0 then none else some (s.take i)
    host := if j = i then none else some ((s.drop i).takeWhile hostChar)
    port := (portDigits s j).map digitsToNat
    path := if s.drop m = [] then none else some (s.drop m)
    pathOffset := if s.drop m = [] then -1 else (m : Int) }

/-- `HDFSStore.FS_PREFIX` (hdfs.py line 50). -/
def FS_PREFIX : PyStr := "hdfs://".toList

/-- Python truthiness of an optional string (`None` and `''` are falsy). -/
def pyTruthyStr (o : Option PyStr) : Bool :=
  match o with
  | some s => !s.isEmpty
  | none => false

/-- `HDFSStore._check_url` (hdfs.py lines 151-158), as the predicate "raises
`ValueError`": true iff the prefix is present and differs from `FS_PREFIX`,
or the path is falsy (`None` or empty). -/
def checkUrlFails (pfxO pathO : Option PyStr) : Bool :=
  (match pfxO with
   | some p => decide (p ≠ FS_PREFIX)
   | none => false)
  || !pyTruthyStr pathO

/-! ## Remote connections and store construction

`pa.hdfs.connect(**kwargs)` opens a remote connection.  We model the effect
by a counter `ConnLog` of connections made so far; a new connection returns
the fresh handle id `log.calls` and increments the counter.  A connection
attempt may instead fail (`BackendUnavailableError`), modelled by the
`connectOk` flag of `hdfsInit`. -/

/-- Count of remote connections made so far; handle ids are `0, 1, …`. -/
structure ConnLog where
  calls : Nat
deriving DecidableEq, Repr

/-- Python `a or b` on optional strings, where `None` and `''` are falsy
(`host = host or url_host or 'default'`, hdfs.py line 62). -/
def pyOrS (a : Option PyStr) (b : PyStr) : PyStr :=
  if pyTruthyStr a then a.getD [] else b

/-- Python `a or b` on optional integers, where `None` and `0` are falsy
(`port = port or url_port or 0`, hdfs.py line 63). -/
def pyOrN (a : Option Nat) (b : Nat) : Nat :=
  match a with
  | some n => if n = 0 then b else n
  | none => b

/-- Errors of store construction: `ValueError` from `_check_url`
(`InvalidLocationError` in the spec), or a connection failure from
`pa.hdfs.connect` (`BackendUnavailableError`). -/
inductive InitErr where
  | invalidLocation
  | backendUnavailable
deriving DecidableEq, Repr

/-- The state `HDFSStore.__init__` leaves behind: resolved connection
parameters, `self._url_prefix`, and the eagerly built handle `self._hdfs`. -/
structure HDFSStoreState where
  host : PyStr
  port : Nat
  urlPfx : PyStr
  hdfs : Nat
  pfxPath : PyStr
deriving DecidableEq, Repr

/-- `HDFSStore.__init__` (hdfs.py lines 53-71): parse the URL, validate it
(`_check_url`), compute `self._url_prefix`, merge explicit host/port
arguments with URL values via Python `or`, then eagerly connect
(`self._hdfs = self._get_filesystem_fn()()`). -/
def hdfsInit (pfxPath : PyStr) (hostArg : Option PyStr) (portArg : Option Nat)
    (connectOk : Bool) (log : ConnLog) : Except InitErr (HDFSStoreState × ConnLog) :=
  let r := parse_url pfxPath
  if checkUrlFails r.pfx r.path then .error .invalidLocation
  else
    let urlPfx := if pyTruthyStr r.pfx then pfxPath.take r.pathOffset.toNat else FS_PREFIX
    let host := pyOrS hostArg (pyOrS r.host "default".toList)
    let port := pyOrN portArg (pyOrN r.port 0)
    if connectOk then
      .ok ({ host := host, port := port, urlPfx := urlPfx,
             hdfs := log.calls, pfxPath := pfxPath }, ⟨log.calls + 1⟩)
    else .error .backendUnavailable

/-- `HDFSStore.get_filesystem` (hdfs.py lines 89-90): returns the handle
built at construction time; the connection log is untouched. -/
def getFilesystem (st : HDFSStoreState) (log : ConnLog) : Nat × ConnLog :=
  (st.hdfs, log)

/-! ## The sync engine (`HDFSStore.sync_fn`, hdfs.py lines 105-142)

The closure state (`SyncState` in the source too) holds the lazily created
connection `fs` and the upload ledger `uploaded` (a Python dict from local
path to last uploaded mtime, modelled as a function `PyStr → Option Int`).

One invocation of the returned `fn(local_run_path)` is `syncCall`.  It is
parameterized by what the external world determines: the directory walk
`walk` (the `(local_dir, files)` pairs `os.walk` yields, in order), the
mtime function `m` (`int(os.path.getmtime(...))`), and which remote uploads
succeed (`ok`; a `false` upload raises, aborting the call). -/

/-- The upload ledger (`state.uploaded`): local path ↦ last uploaded mtime. -/
abbrev Ledger := PyStr → Option Int

/-- The empty ledger a fresh sync session starts with. -/
def emptyLedger : Ledger := fun _ => none

/-- Dict assignment `uploaded[local_path] = modified_ts`. -/
def ledgerSet (u : Ledger) (k : PyStr) (v : Int) : Ledger :=
  fun k' => if k' = k then some v else u k'

/-- The closure state of one sync session (class `SyncState` in the source). -/
structure SyncState where
  fs : Option Nat
  uploaded : Ledger

/-- The state captured when `sync_fn(run_id)` constructs the closure:
no connection yet, empty ledger (hdfs.py lines 106-111). -/
def initSyncState : SyncState := { fs := none, uploaded := emptyLedger }

/-- The inner `for file in files` loop of `fn` for one directory
(hdfs.py lines 128-140).  Returns the ledger after the loop, the uploads
performed `(local_path, hdfs_path)` in order, and `some local_path` if an
upload raised there (aborting the call). -/
def syncDir (m : PyStr → Int) (ok : PyStr → Bool) (hdfsDir localDir : PyStr) :
    List PyStr → Ledger → Ledger × List (PyStr × PyStr) × Option PyStr
  | [], u => (u, [], none)
  | file :: rest, u =>
    -- local_path = os.path.join(local_dir, file); modified_ts = int(getmtime(...))
    -- if local_path in uploaded and modified_ts <= uploaded[local_path]: continue
    if (match u (osPathJoin localDir file) with
        | some last => decide (m (osPathJoin localDir file) ≤ last)
        | none => false) then
      syncDir m ok hdfsDir localDir rest u
    else if ok (osPathJoin hdfsDir file) then
      match syncDir m ok hdfsDir localDir rest
          (ledgerSet u (osPathJoin localDir file) (m (osPathJoin localDir file))) with
      | (u', ups, f') =>
        (u', (osPathJoin localDir file, osPathJoin hdfsDir file) :: ups, f')
    else (u, [], some (osPathJoin localDir file))

/-- The outer `for local_dir, dirs, files in os.walk(local_run_path)` loop of
`fn` (hdfs.py lines 126-140).  `hdfs_dir = os.path.join(hdfs_root_path,
local_dir[prefix:])` with `prefix = len(local_run_path) + 1`. -/
def syncWalk (m : PyStr → Int) (ok : PyStr → Bool) (root lrp : PyStr) :
    List (PyStr × List PyStr) → Ledger → Ledger × List (PyStr × PyStr) × Option PyStr
  | [], u => (u, [], none)
  | (localDir, files) :: rest, u =>
    match syncDir m ok (osPathJoin root (localDir.drop (lrp.length + 1))) localDir files u with
    | (u', ups, some f) => (u', ups, some f)
    | (u', ups, none) =>
      match syncWalk m ok root lrp rest u' with
      | (u'', ups', f') => (u'', ups ++ ups', f')

/-- Result of one invocation of the sync function. -/
structure CallRes where
  state : SyncState
  log : ConnLog
  uploads : List (PyStr × PyStr)
  failed : Option PyStr

/-- One invocation of `fn(local_run_path)` (hdfs.py lines 115-140): lazily
connect if `state.fs is None`, then walk the tree.  On an upload failure the
exception propagates, but mutations already made to `state` persist. -/
def syncCall (m : PyStr → Int) (ok : PyStr → Bool) (root lrp : PyStr)
    (walk : List (PyStr × List PyStr)) (st : SyncState) (log : ConnLog) : CallRes :=
  let fsLog : Nat × ConnLog :=
    match st.fs with
    | some h => (h, log)
    | none => (log.calls, ⟨log.calls + 1⟩)
  let r := syncWalk m ok root lrp walk st.uploaded
  { state := { fs := some fsLog.1, uploaded := r.1 }
    log := fsLog.2
    uploads := r.2.1
    failed := r.2.2 }

/-- Modelled from the spec: `get_run_path` belongs to the `FilesystemStore`
base class (`cerebro/storage/base.py`), which is not among the provided
sources.  Per the spec, the remote root of a run is "derived by joining the
store's path prefix with `run_id`", each run occupying the subtree
`<prefix_path>/<run_id>/...`. -/
def get_run_path (pfxPath runId : PyStr) : PyStr :=
  osPathJoin pfxPath runId

/-- The flattened walk: the `(local_path, hdfs_path)` pair the loops of `fn`
compute for every visited file, in visit order. -/
def walkFiles (root lrp : PyStr) : List (PyStr × List PyStr) → List (PyStr × PyStr)
  | [] => []
  | (localDir, files) :: rest =>
    files.map (fun file =>
      (osPathJoin localDir file,
       osPathJoin (osPathJoin root (localDir.drop (lrp.length + 1))) file))
      ++ walkFiles root lrp rest

/-- The upload decision of hdfs.py lines 132-135, as a predicate of the
ledger before visiting the file: upload iff the path is not yet a key, or
its current mtime is strictly greater than the recorded one. -/
def shouldUp (m : PyStr → Int) (u : Ledger) (lp : PyStr) : Bool :=
  match u lp with
  | some last => decide (last < m lp)
  | none => true

/-- The file loop over the flattened walk (proof vehicle; `syncFlatEqWalk`
below proves it equals the nested loops of the source). -/
def syncFlat (m : PyStr → Int) (ok : PyStr → Bool) :
    List (PyStr × PyStr) → Ledger → Ledger × List (PyStr × PyStr) × Option PyStr
  | [], u => (u, [], none)
  | (lp, rp) :: rest, u =>
    if shouldUp m u lp then
      if ok rp then
        match syncFlat m ok rest (ledgerSet u lp (m lp)) with
        | (u', ups, f') => (u', (lp, rp) :: ups, f')
      else (u, [], some lp)
    else syncFlat m ok rest u

/-- Inputs of one sync invocation (everything the outside world chooses). -/
structure CallSpec where
  m : PyStr → Int
  ok : PyStr → Bool
  root : PyStr
  lrp : PyStr
  walk : List (PyStr × List PyStr)

/-- A sequence of invocations of one sync session's function. -/
def runCalls : SyncState → ConnLog → List CallSpec → SyncState × ConnLog
  | st, log, [] => (st, log)
  | st, log, c :: rest =>
    runCalls (syncCall c.m c.ok c.root c.lrp c.walk st log).state
      (syncCall c.m c.ok c.root c.lrp c.walk st log).log rest

/-! ## Scratch directory lifecycle (`get_local_output_dir_fn`, hdfs.py 92-103)

`local_run_path` is a context manager: `dirpath = tempfile.mkdtemp(dir=...)`,
`yield dirpath`, and `finally: shutil.rmtree(dirpath)`.  The filesystem is
modelled as the set of existing paths; `mkdtemp` creates a fresh path chosen
by the OS, `rmtree` removes a path and everything below it; the body may
mutate the filesystem and either return or raise (`Except`). -/

/-- The local filesystem: the list of currently existing paths. -/
structure FsState where
  dirs : List PyStr
deriving DecidableEq, Repr

/-- `p` lies in the subtree rooted at `d` (it is `d` or has `d ++ "/"` as a
path prefix). -/
def isUnder (d p : PyStr) : Bool :=
  p == d || (d ++ ['/']).isPrefixOf p

/-- `tempfile.mkdtemp`: create the fresh directory chosen by the OS. -/
def mkdtemp (fresh : PyStr) (s : FsState) : FsState :=
  ⟨fresh :: s.dirs⟩

/-- `shutil.rmtree(d)`: recursively delete the subtree rooted at `d`. -/
def rmtree (d : PyStr) (s : FsState) : FsState :=
  ⟨s.dirs.filter (fun p => !isUnder d p)⟩

/-- The `local_run_path` context manager sandwiching a caller body:
`mkdtemp`, run the body (which may raise), `finally: rmtree`.  The body's
outcome (normal value or exception) is propagated after the cleanup. -/
def localRunPath {E A : Type} (fresh : PyStr)
    (body : PyStr → FsState → FsState × Except E A) (s₀ : FsState) :
    FsState × Except E A :=
  let s₁ := mkdtemp fresh s₀
  let r := body fresh s₁
  (rmtree fresh r.1, r.2)

/-- A concrete store state used to instantiate construction theorems. -/
def sampleStore (h : Nat) : HDFSStoreState :=
  { host := "default".toList, port := 0, urlPfx := FS_PREFIX, hdfs := h,
    pfxPath := "/a/b".toList }

/-- A concrete scope body (creates a file under the scratch dir, then
raises) used to instantiate the scratch-directory theorem. -/
def sampleBody : PyStr → FsState → FsState × Except Unit Unit :=
  fun d fs => (⟨(d ++ "/x".toList) :: fs.dirs⟩, .error ())

/-- A concrete sync-call input used to instantiate session theorems. -/
def sampleCall : CallSpec :=
  { m := fun _ => 0, ok := fun _ => true, root := "/r".toList, lrp := "/t".toList,
    walk := [] }

/-! ## Helper lemmas -/

lemma ledgerSet_same (u : Ledger) (k : PyStr) (v : Int) : ledgerSet u k v k = some v := by
  simp [ledgerSet]

lemma ledgerSet_ne (u : Ledger) (k : PyStr) (v : Int) {k' : PyStr} (h : k' ≠ k) :
    ledgerSet u k v k' = u k' := by
  simp [ledgerSet, h]

lemma shouldUp_ledgerSet_ne (m : PyStr → Int) (u : Ledger) (k : PyStr) (v : Int)
    {lp : PyStr} (h : lp ≠ k) : shouldUp m (ledgerSet u k v) lp = shouldUp m u lp := by
  simp [shouldUp, ledgerSet, h]

/-- The skip test of hdfs.py lines 132-135 is the negation of `shouldUp`. -/
lemma skip_eq_not_shouldUp (m : PyStr → Int) (u : Ledger) (lp : PyStr) :
    (match u lp with
     | some last => decide (m lp ≤ last)
     | none => false) = !shouldUp m u lp := by
  cases hu : u lp <;> simp [shouldUp, hu, ← decide_not, Int.not_lt]

/-- The inner file loop is the flattened loop on the mapped file list. -/
lemma syncDir_eq_flat (m : PyStr → Int) (ok : PyStr → Bool) (hdfsDir localDir : PyStr)
    (files : List PyStr) (u : Ledger) :
    syncDir m ok hdfsDir localDir files u
      = syncFlat m ok
          (files.map fun file => (osPathJoin localDir file, osPathJoin hdfsDir file)) u := by
  induction files generalizing u with
  | nil => rfl
  | cons file rest ih =>
    simp only [syncDir, syncFlat, List.map_cons]
    rw [skip_eq_not_shouldUp]
    cases hs : shouldUp m u (osPathJoin localDir file) with
    | false => simpa [hs] using ih u
    | true =>
      by_cases ho : ok (osPathJoin hdfsDir file)
      · simp only [hs, ho, Bool.not_true, Bool.false_eq_true, if_false, if_true]
        rw [ih]
      · simp [hs, ho]

/-- `syncFlat` over an appended file list runs the first part, then the
second from the resulting ledger unless the first aborted. -/
lemma syncFlat_append (m : PyStr → Int) (ok : PyStr → Bool)
    (xs ys : List (PyStr × PyStr)) (u : Ledger) :
    syncFlat m ok (xs ++ ys) u =
      match syncFlat m ok xs u with
      | (u', ups, some f) => (u', ups, some f)
      | (u', ups, none) =>
        match syncFlat m ok ys u' with
        | (u'', ups', f') => (u'', ups ++ ups', f') := by
  induction xs generalizing u with
  | nil =>
    simp only [List.nil_append, syncFlat]
  | cons x rest ih =>
    rcases x with ⟨lp, rp⟩
    simp only [List.cons_append, syncFlat]
    by_cases hs : shouldUp m u lp
    · by_cases ho : ok rp
      · simp only [hs, ho, if_true]
        rw [show rest.append ys = rest ++ ys from rfl, ih]
        rcases h : syncFlat m ok rest (ledgerSet u lp (m lp)) with ⟨u', ups, f⟩
        cases f with
        | none =>
          rcases h2 : syncFlat m ok ys u' with ⟨u'', ups', f'⟩
          simp [h2]
        | some flp => simp
      · simp [hs, ho]
    · simp only [hs, Bool.false_eq_true, if_false]
      exact ih u

/-- The nested loops of `fn` equal the flattened loop on `walkFiles`. -/
lemma syncWalk_eq_flat (m : PyStr → Int) (ok : PyStr → Bool) (root lrp : PyStr)
    (walk : List (PyStr × List PyStr)) (u : Ledger) :
    syncWalk m ok root lrp walk u = syncFlat m ok (walkFiles root lrp walk) u := by
  induction walk generalizing u with
  | nil => rfl
  | cons e rest ih =>
    rcases e with ⟨dir, files⟩
    simp only [syncWalk, walkFiles]
    rw [syncFlat_append, ← syncDir_eq_flat]
    rcases h : syncDir m ok (osPathJoin root (dir.drop (lrp.length + 1))) dir files u
      with ⟨u', ups, f⟩
    cases f with
    | none =>
      rcases h2 : syncFlat m ok (walkFiles root lrp rest) u' with ⟨u'', ups', f'⟩
      simp [ih, h2]
    | some flp => simp

/-- On a call where every upload succeeds, over files with pairwise distinct
local paths: nothing aborts, the uploads are exactly the files passing the
`shouldUp` decision against the starting ledger, paths outside the walk keep
their ledger entries, and each visited path ends with its current mtime
recorded (if uploaded) or its old entry (if skipped). -/
lemma syncFlat_success (m : PyStr → Int) (files : List (PyStr × PyStr)) (u₀ : Ledger)
    (hnd : (files.map Prod.fst).Nodup) :
    (syncFlat m (fun _ => true) files u₀).2.2 = none
    ∧ (syncFlat m (fun _ => true) files u₀).2.1
        = files.filter (fun p => shouldUp m u₀ p.1)
    ∧ (∀ lp, lp ∉ files.map Prod.fst → (syncFlat m (fun _ => true) files u₀).1 lp = u₀ lp)
    ∧ (∀ p ∈ files, (syncFlat m (fun _ => true) files u₀).1 p.1
        = if shouldUp m u₀ p.1 then some (m p.1) else u₀ p.1) := by
  induction files generalizing u₀ with
  | nil => simp [syncFlat]
  | cons x rest ih =>
    rcases x with ⟨lp₀, rp₀⟩
    simp only [List.map_cons, List.nodup_cons] at hnd
    obtain ⟨hnotin, hnd'⟩ := hnd
    have hne : ∀ p ∈ rest, p.1 ≠ lp₀ := by
      intro p hp heq
      exact hnotin (by rw [← heq]; exact List.mem_map_of_mem Prod.fst hp)
    by_cases hs : shouldUp m u₀ lp₀
    · obtain ⟨ihf, ihu, ihout, ihmem⟩ := ih (ledgerSet u₀ lp₀ (m lp₀)) hnd'
      simp only [syncFlat, hs, if_true]
      rcases h : syncFlat m (fun _ => true) rest (ledgerSet u₀ lp₀ (m lp₀)) with ⟨u', ups, f⟩
      rw [h] at ihf ihu ihout ihmem
      refine ⟨ihf, ?_, ?_, ?_⟩
      · rw [List.filter_cons_of_pos (by simpa using hs), ihu]
        exact congrArg _ (List.filter_congr fun p hp => by
          rw [shouldUp_ledgerSet_ne m u₀ lp₀ (m lp₀) (hne p hp)])
      · intro lp hlp
        rw [List.map_cons, List.mem_cons] at hlp
        push_neg at hlp
        rw [ihout lp hlp.2, ledgerSet_ne u₀ lp₀ (m lp₀) hlp.1]
      · intro p hp
        rcases List.mem_cons.mp hp with hp | hp
        · subst hp
          rw [ihout lp₀ hnotin, ledgerSet_same, if_pos hs]
        · rw [ihmem p hp, shouldUp_ledgerSet_ne m u₀ lp₀ (m lp₀) (hne p hp),
            ledgerSet_ne u₀ lp₀ (m lp₀) (hne p hp)]
    · obtain ⟨ihf, ihu, ihout, ihmem⟩ := ih u₀ hnd'
      simp only [syncFlat, hs, Bool.false_eq_true, if_false]
      refine ⟨ihf, ?_, ?_, ?_⟩
      · rw [List.filter_cons_of_neg (by simpa using hs), ihu]
      · intro lp hlp
        rw [List.map_cons, List.mem_cons] at hlp
        push_neg at hlp
        exact ihout lp hlp.2
      · intro p hp
        rcases List.mem_cons.mp hp with hp | hp
        · subst hp
          rw [ihout lp₀ hnotin, if_neg (by simpa using hs)]
        · exact ihmem p hp

/-- On a call that aborts because uploading `flp` failed, over files with
pairwise distinct local paths: the ledger entry of `flp` is unchanged, `flp`
was not uploaded in this call, every file uploaded earlier in the call keeps
its committed entry, paths outside the walk are untouched, and the call's
result is exactly the result of processing the walk segment strictly before
the failing file. -/
lemma syncFlat_abort (m : PyStr → Int) (ok : PyStr → Bool)
    (files : List (PyStr × PyStr)) (u₀ : Ledger)
    (hnd : (files.map Prod.fst).Nodup) :
    ∀ flp, (syncFlat m ok files u₀).2.2 = some flp →
      (syncFlat m ok files u₀).1 flp = u₀ flp
      ∧ flp ∉ (syncFlat m ok files u₀).2.1.map Prod.fst
      ∧ (∀ p ∈ (syncFlat m ok files u₀).2.1, (syncFlat m ok files u₀).1 p.1 = some (m p.1))
      ∧ (∀ lp, lp ∉ files.map Prod.fst → (syncFlat m ok files u₀).1 lp = u₀ lp)
      ∧ ∃ pre frp post, files = pre ++ (flp, frp) :: post ∧ ok frp = false
          ∧ shouldUp m u₀ flp = true
          ∧ syncFlat m ok pre u₀
              = ((syncFlat m ok files u₀).1, (syncFlat m ok files u₀).2.1, none) := by
  induction files generalizing u₀ with
  | nil => intro flp h; simp [syncFlat] at h
  | cons x rest ih =>
    rcases x with ⟨lp₀, rp₀⟩
    simp only [List.map_cons, List.nodup_cons] at hnd
    obtain ⟨hnotin, hnd'⟩ := hnd
    have hne : ∀ p ∈ rest, p.1 ≠ lp₀ := by
      intro p hp heq
      exact hnotin (by rw [← heq]; exact List.mem_map_of_mem Prod.fst hp)
    intro flp
    by_cases hs : shouldUp m u₀ lp₀
    · by_cases ho : ok rp₀
      · simp only [syncFlat, hs, ho, if_true]
        rcases h : syncFlat m ok rest (ledgerSet u₀ lp₀ (m lp₀)) with ⟨u', ups, f⟩
        intro hf
        simp only at hf
        subst hf
        obtain ⟨ih1, ih2, ih3, ih4, pre, frp, post, hsplit, hfrp, hshould, hpre⟩ :=
          ih (ledgerSet u₀ lp₀ (m lp₀)) hnd' flp (by rw [h])
        rw [h] at ih1 ih2 ih3 ih4 hpre
        have hflpmem : flp ∈ rest.map Prod.fst := by
          rw [hsplit, List.map_append]
          exact List.mem_append_right _ (by simp)
        have hflpne : flp ≠ lp₀ := fun heq => hnotin (heq ▸ hflpmem)
        refine ⟨?_, ?_, ?_, ?_, (lp₀, rp₀) :: pre, frp, post, ?_, hfrp, ?_, ?_⟩
        · rw [ih1, ledgerSet_ne u₀ lp₀ (m lp₀) hflpne]
        · simp only [List.map_cons, List.mem_cons]
          push_neg
          exact ⟨hflpne, ih2⟩
        · intro p hp
          rcases List.mem_cons.mp hp with hp | hp
          · subst hp
            rw [ih4 lp₀ hnotin, ledgerSet_same]
          · exact ih3 p hp
        · intro lp hlp
          rw [List.map_cons, List.mem_cons] at hlp
          push_neg at hlp
          rw [ih4 lp hlp.2, ledgerSet_ne u₀ lp₀ (m lp₀) hlp.1]
        · rw [hsplit, List.cons_append]
        · rw [← hshould, shouldUp_ledgerSet_ne m u₀ lp₀ (m lp₀) hflpne]
        · simp only [syncFlat, hs, ho, if_true, hpre]
      · simp only [syncFlat, hs, ho, Bool.false_eq_true, if_true, if_false]
        intro hf
        simp only [Option.some.injEq] at hf
        subst hf
        refine ⟨?_, ?_, ?_, ?_, [], rp₀, rest, ?_, ?_, ?_, ?_⟩
        all_goals first
          | trivial
          | exact hs
          | (simpa using ho)
    · simp only [syncFlat, hs, Bool.false_eq_true, if_false]
      intro hf
      obtain ⟨ih1, ih2, ih3, ih4, pre, frp, post, hsplit, hfrp, hshould, hpre⟩ :=
        ih u₀ hnd' flp hf
      refine ⟨ih1, ih2, ih3, ?_, (lp₀, rp₀) :: pre, frp, post, ?_, hfrp, hshould, ?_⟩
      · intro lp hlp
        rw [List.map_cons, List.mem_cons] at hlp
        push_neg at hlp
        exact ih4 lp hlp.2
      · rw [hsplit, List.cons_append]
      · simp only [syncFlat, hs, Bool.false_eq_true, if_false, hpre]

lemma syncCall_uploads (m : PyStr → Int) (ok : PyStr → Bool) (root lrp : PyStr)
    (walk : List (PyStr × List PyStr)) (st : SyncState) (log : ConnLog) :
    (syncCall m ok root lrp walk st log).uploads
      = (syncFlat m ok (walkFiles root lrp walk) st.uploaded).2.1 := by
  simp [syncCall, syncWalk_eq_flat]

lemma syncCall_failed (m : PyStr → Int) (ok : PyStr → Bool) (root lrp : PyStr)
    (walk : List (PyStr × List PyStr)) (st : SyncState) (log : ConnLog) :
    (syncCall m ok root lrp walk st log).failed
      = (syncFlat m ok (walkFiles root lrp walk) st.uploaded).2.2 := by
  simp [syncCall, syncWalk_eq_flat]

lemma syncCall_uploaded (m : PyStr → Int) (ok : PyStr → Bool) (root lrp : PyStr)
    (walk : List (PyStr × List PyStr)) (st : SyncState) (log : ConnLog) :
    (syncCall m ok root lrp walk st log).state.uploaded
      = (syncFlat m ok (walkFiles root lrp walk) st.uploaded).1 := by
  simp [syncCall, syncWalk_eq_flat]

lemma syncCall_conn_first (m : PyStr → Int) (ok : PyStr → Bool) (root lrp : PyStr)
    (walk : List (PyStr × List PyStr)) (st : SyncState) (log : ConnLog)
    (h : st.fs = none) :
    (syncCall m ok root lrp walk st log).state.fs = some log.calls
      ∧ (syncCall m ok root lrp walk st log).log = ⟨log.calls + 1⟩ := by
  simp [syncCall, h]

lemma syncCall_conn_cached (m : PyStr → Int) (ok : PyStr → Bool) (root lrp : PyStr)
    (walk : List (PyStr × List PyStr)) (st : SyncState) (log : ConnLog)
    {hh : Nat} (h : st.fs = some hh) :
    (syncCall m ok root lrp walk st log).state.fs = some hh
      ∧ (syncCall m ok root lrp walk st log).log = log := by
  simp [syncCall, h]

/-- Once the cached handle is set, any further sequence of sync invocations
keeps it and makes no further connection. -/
lemma runCalls_cached (calls : List CallSpec) :
    ∀ (st : SyncState) (log : ConnLog) (h : Nat), st.fs = some h →
      (runCalls st log calls).1.fs = some h ∧ (runCalls st log calls).2 = log := by
  induction calls with
  | nil => exact fun st log h hfs => ⟨hfs, rfl⟩
  | cons c rest ih =>
    intro st log h hfs
    obtain ⟨h1, h2⟩ := syncCall_conn_cached c.m c.ok c.root c.lrp c.walk st log hfs
    obtain ⟨h3, h4⟩ := ih _ _ h h1
    exact ⟨h3, h4.trans h2⟩

/-- Filtering a distinct-keyed file list for one present key yields exactly
that entry. -/
lemma filter_key_single (f1 : PyStr × PyStr) :
    ∀ (files : List (PyStr × PyStr)), (files.map Prod.fst).Nodup → f1 ∈ files →
      files.filter (fun p => decide (p.1 = f1.1)) = [f1] := by
  intro files
  induction files with
  | nil => intro _ hm; cases hm
  | cons a rest ih =>
    intro hnd hm
    simp only [List.map_cons, List.nodup_cons] at hnd
    obtain ⟨hnotin, hnd'⟩ := hnd
    rcases List.mem_cons.mp hm with rfl | hm'
    · rw [List.filter_cons_of_pos (by simp)]
      have hrest : rest.filter (fun p => decide (p.1 = f1.1)) = [] := by
        apply List.filter_eq_nil_iff.mpr
        intro p hp
        simp only [decide_eq_true_eq]
        intro h
        exact hnotin (by rw [← h]; exact List.mem_map_of_mem Prod.fst hp)
      rw [hrest]
    · have hane : ¬ (a.1 = f1.1) := by
        intro h
        exact hnotin (by rw [h]; exact List.mem_map_of_mem Prod.fst hm')
      rw [List.filter_cons_of_neg (by simpa using hane), ih hnd' hm']

/-! ## Path computation lemmas -/

/-- `os.path.join` of a clean directory (non-empty, no trailing slash) and a
relative component inserts exactly one separator. -/
lemma osPathJoin_rel (a b : PyStr) (hb : b.head? ≠ some '/') (ha : a ≠ [])
    (ha2 : a.getLast? ≠ some '/') : osPathJoin a b = a ++ '/' :: b := by
  unfold osPathJoin
  rw [if_neg hb, if_neg (by push_neg; exact ⟨ha, ha2⟩)]

/-- Stripping `len(local_run_path) + 1` characters from
`local_run_path ++ "/" ++ rel` leaves `rel` (hdfs.py lines 124-127). -/
lemma drop_scratch (lrp rel : PyStr) :
    (lrp ++ '/' :: rel).drop (lrp.length + 1) = rel := by
  rw [show lrp ++ '/' :: rel = (lrp ++ ['/']) ++ rel by simp,
    show lrp.length + 1 = (lrp ++ ['/']).length by simp, List.drop_left]

lemma getLast?_append_cons (a : PyStr) (c : Char) (b : PyStr) (hb : b ≠ []) :
    (a ++ c :: b).getLast? = b.getLast? := by
  rw [show a ++ c :: b = (a ++ [c]) ++ b by simp, List.getLast?_append_of_ne_nil _ hb]

/-! ## parse_url support lemmas -/

lemma sep_occurs_of_isSepAt (s : PyStr) (k : Nat) (h : isSepAt s k = true) : SEP <:+: s := by
  rw [isSepAt, decide_eq_true_eq] at h
  refine ⟨s.take k, (s.drop k).drop 3, ?_⟩
  calc s.take k ++ SEP ++ (s.drop k).drop 3
      = s.take k ++ ((s.drop k).take 3 ++ (s.drop k).drop 3) := by
        rw [← h, List.append_assoc]
    _ = s.take k ++ s.drop k := by rw [List.take_append_drop]
    _ = s := List.take_append_drop k s

/-- A string not containing `"://"` has no scheme group. -/
lemma schemeEnd_of_no_sep (s : PyStr) (hsep : ¬ SEP <:+: s) : schemeEnd s = 0 := by
  have hpos : sepPositions s = [] := by
    apply List.filter_eq_nil_iff.mpr
    intro k _
    simp only [Bool.and_eq_true, decide_eq_true_eq, not_and]
    intro _ h2
    exact absurd (sep_occurs_of_isSepAt s k h2) hsep
  simp [schemeEnd, hpos]

/-- `portEnd` never moves backwards. -/
lemma le_portEnd (s : PyStr) (j : Nat) : j ≤ portEnd s j := by
  unfold portEnd
  cases portDigits s j <;> simp <;> omega

/-! ## Decision and merge helper lemmas -/

lemma shouldUp_iff (m : PyStr → Int) (u : Ledger) (lp : PyStr) :
    shouldUp m u lp = true ↔ (u lp = none ∨ ∃ last, u lp = some last ∧ last < m lp) := by
  cases h : u lp <;> simp [shouldUp, h]

lemma shouldUp_empty (m : PyStr → Int) (lp : PyStr) :
    shouldUp m emptyLedger lp = true := by
  simp [shouldUp, emptyLedger]

lemma pyOrS_truthy (s b : PyStr) (h : s ≠ []) : pyOrS (some s) b = s := by
  simp [pyOrS, pyTruthyStr, List.isEmpty_iff, h]

lemma pyOrS_falsy (a : Option PyStr) (b : PyStr) (h : a = none ∨ a = some []) :
    pyOrS a b = b := by
  rcases h with rfl | rfl <;> simp [pyOrS, pyTruthyStr]

lemma pyOrN_truthy (n b : Nat) (h : n ≠ 0) : pyOrN (some n) b = n := by
  simp [pyOrN, h]

lemma pyOrN_falsy (a : Option Nat) (b : Nat) (h : a = none ∨ a = some 0) :
    pyOrN a b = b := by
  rcases h with rfl | rfl <;> simp [pyOrN]

lemma pyOrN_url (un : Nat) : pyOrN (some un) 0 = un := by
  by_cases h : un = 0 <;> simp [pyOrN, h]

lemma checkUrlFails_iff (a b : Option PyStr) :
    checkUrlFails a b = true
      ↔ (∃ p, a = some p ∧ p ≠ FS_PREFIX) ∨ b = none ∨ b = some [] := by
  rcases a with _ | p <;> rcases b with _ | q <;>
    simp [checkUrlFails, pyTruthyStr, List.isEmpty_iff]

/-- Field extraction from a successful store construction. -/
lemma hdfsInit_ok_fields (url : PyStr) (hostArg : Option PyStr) (portArg : Option Nat)
    (log : ConnLog) (st : HDFSStoreState) (log' : ConnLog)
    (h : hdfsInit url hostArg portArg true log = .ok (st, log')) :
    st.host = pyOrS hostArg (pyOrS (parse_url url).host "default".toList)
    ∧ st.port = pyOrN portArg (pyOrN (parse_url url).port 0)
    ∧ st.hdfs = log.calls ∧ log' = ⟨log.calls + 1⟩ := by
  unfold hdfsInit at h
  by_cases hc : checkUrlFails (parse_url url).pfx (parse_url url).path
  · rw [if_pos hc] at h
    cases h
  · rw [if_neg hc] at h
    simp only [if_true, Except.ok.injEq, Prod.mk.injEq] at h
    obtain ⟨hst, hlog⟩ := h
    subst hst
    subst hlog
    exact ⟨rfl, rfl, rfl, rfl⟩

/-! ## Claim theorems -/

/-- C4: for every location string on which `parse_url` returns a path, the
string from index `path_offset` onward equals the returned path, and the
part before `path_offset` concatenated with the path reconstructs the
original string; moreover `parse_url("hdfs://nn:8020/a/b")` yields prefix
`hdfs://`, host `nn`, port `8020`, path `/a/b`; `parse_url("hdfs:///a/b")`
yields prefix `hdfs://`, host absent, path `/a/b`; and `parse_url("/a/b")`
yields prefix absent and path `/a/b`.  (The newline-freedom hypothesis marks
the domain on which the embedding models Python's `.`-based pattern.) -/
theorem parse_url_path_slicing (s p : PyStr) (hnl : '\n' ∉ s)
    (hp : (parse_url s).path = some p) :
    0 ≤ (parse_url s).pathOffset
    ∧ s.drop (parse_url s).pathOffset.toNat = p
    ∧ s.take (parse_url s).pathOffset.toNat ++ p = s
    ∧ parse_url "hdfs://nn:8020/a/b".toList
        = ⟨some "hdfs://".toList, some "nn".toList, some 8020, some "/a/b".toList, 14⟩
    ∧ parse_url "hdfs:///a/b".toList
        = ⟨some "hdfs://".toList, none, none, some "/a/b".toList, 7⟩
    ∧ parse_url "/a/b".toList = ⟨none, none, none, some "/a/b".toList, 0⟩ := by
  have hpath : (parse_url s).path
      = if s.drop (portEnd s (hostEnd s (schemeEnd s))) = [] then none
        else some (s.drop (portEnd s (hostEnd s (schemeEnd s)))) := rfl
  have hoffs : (parse_url s).pathOffset
      = if s.drop (portEnd s (hostEnd s (schemeEnd s))) = [] then -1
        else ((portEnd s (hostEnd s (schemeEnd s)) : Nat) : Int) := rfl
  by_cases hd : s.drop (portEnd s (hostEnd s (schemeEnd s))) = []
  · rw [hpath, if_pos hd] at hp
    cases hp
  · rw [hpath, if_neg hd] at hp
    have hpe : p = s.drop (portEnd s (hostEnd s (schemeEnd s))) := (Option.some.inj hp).symm
    rw [hoffs, if_neg hd]
    refine ⟨Int.natCast_nonneg _, ?_, ?_, by decide, by decide, by decide⟩
    · rw [Int.toNat_natCast, hpe]
    · rw [Int.toNat_natCast, hpe, List.take_append_drop]

/-- C4 witness. -/
theorem parse_url_path_slicing_witness :
    0 ≤ (parse_url "hdfs://nn:8020/a/b".toList).pathOffset
    ∧ "hdfs://nn:8020/a/b".toList.drop
        (parse_url "hdfs://nn:8020/a/b".toList).pathOffset.toNat = "/a/b".toList
    ∧ "hdfs://nn:8020/a/b".toList.take
        (parse_url "hdfs://nn:8020/a/b".toList).pathOffset.toNat ++ "/a/b".toList
        = "hdfs://nn:8020/a/b".toList := by
  obtain ⟨h1, h2, h3, _⟩ :=
    parse_url_path_slicing "hdfs://nn:8020/a/b".toList "/a/b".toList
      (by decide) (by decide)
  exact ⟨h1, h2, h3⟩

/-- C10: on a string with no `"://"` whose first character is neither `/`
nor `:`, `parse_url` assigns the maximal leading run of non-`/`, non-`:`
characters to the host — not to the path — so a relative path is never
returned intact as the path; e.g. `parse_url("user/test/Cerebro")` yields
host `user` and path `/test/Cerebro`. -/
theorem parse_url_relative_goes_to_host (s : PyStr) (c : Char) (hnl : '\n' ∉ s)
    (hsep : ¬ SEP <:+: s) (hh : s.head? = some c) (hc1 : c ≠ '/') (hc2 : c ≠ ':') :
    (parse_url s).pfx = none
    ∧ (parse_url s).host = some (s.takeWhile hostChar)
    ∧ (∀ q, (parse_url s).path = some q → q.length < s.length)
    ∧ parse_url "user/test/Cerebro".toList
        = ⟨none, some "user".toList, none, some "/test/Cerebro".toList, 4⟩ := by
  have hi : schemeEnd s = 0 := schemeEnd_of_no_sep s hsep
  obtain ⟨t, rfl⟩ : ∃ t, s = c :: t := by
    cases s with
    | nil => cases hh
    | cons c' t =>
      simp only [List.head?_cons, Option.some.injEq] at hh
      exact ⟨t, by rw [hh]⟩
  have hcc : hostChar c = true := by simp [hostChar, hc1, hc2]
  have htw : (c :: t).takeWhile hostChar = c :: t.takeWhile hostChar := by
    rw [List.takeWhile_cons, if_pos hcc]
  have hj : hostEnd (c :: t) 0 = (t.takeWhile hostChar).length + 1 := by
    simp [hostEnd, htw]
  have hm : 1 ≤ portEnd (c :: t) (hostEnd (c :: t) 0) := by
    have := le_portEnd (c :: t) (hostEnd (c :: t) 0)
    omega
  refine ⟨?_, ?_, ?_, by decide⟩
  · simp [parse_url, hi]
  · simp [parse_url, hi, hj]
  · intro q hq
    have hpath : (parse_url (c :: t)).path
        = if (c :: t).drop (portEnd (c :: t) (hostEnd (c :: t) (schemeEnd (c :: t)))) = []
          then none
          else some ((c :: t).drop (portEnd (c :: t) (hostEnd (c :: t) (schemeEnd (c :: t))))) :=
      rfl
    rw [hpath, hi] at hq
    by_cases hd : (c :: t).drop (portEnd (c :: t) (hostEnd (c :: t) 0)) = []
    · rw [if_pos hd] at hq
      cases hq
    · rw [if_neg hd] at hq
      have hqe : q = (c :: t).drop (portEnd (c :: t) (hostEnd (c :: t) 0)) :=
        (Option.some.inj hq).symm
      rw [hqe, List.length_drop]
      have : 0 < (c :: t).length := by simp
      omega

/-- C10 witness. -/
theorem parse_url_relative_goes_to_host_witness :
    (parse_url "user/test/Cerebro".toList).pfx = none
    ∧ (parse_url "user/test/Cerebro".toList).host
        = some ("user/test/Cerebro".toList.takeWhile hostChar) := by
  obtain ⟨h1, h2, _⟩ :=
    parse_url_relative_goes_to_host "user/test/Cerebro".toList 'u'
      (by decide) (by decide) (by decide) (by decide) (by decide)
  exact ⟨h1, h2⟩

/-- C5: `_check_url` fails with `InvalidLocationError` iff the parsed prefix
is present and differs from the canonical `hdfs://`, or no non-empty path
was extracted; an `s3://` URL is rejected at store construction while
`hdfs://`-prefixed and bare-path URLs with a non-empty path pass. -/
theorem check_url_rejects_iff (url : PyStr) (hostArg : Option PyStr)
    (portArg : Option Nat) (log : ConnLog) :
    (checkUrlFails (parse_url url).pfx (parse_url url).path = true
      ↔ (∃ p, (parse_url url).pfx = some p ∧ p ≠ FS_PREFIX)
        ∨ (parse_url url).path = none ∨ (parse_url url).path = some [])
    ∧ (checkUrlFails (parse_url url).pfx (parse_url url).path = true →
        hdfsInit url hostArg portArg true log = .error .invalidLocation)
    ∧ checkUrlFails (parse_url "s3://bucket/key".toList).pfx
        (parse_url "s3://bucket/key".toList).path = true
    ∧ hdfsInit "s3://bucket/key".toList none none true ⟨0⟩ = .error .invalidLocation
    ∧ checkUrlFails (parse_url "hdfs://nn:8020/a/b".toList).pfx
        (parse_url "hdfs://nn:8020/a/b".toList).path = false
    ∧ checkUrlFails (parse_url "/user/test/Cerebro".toList).pfx
        (parse_url "/user/test/Cerebro".toList).path = false := by
  refine ⟨checkUrlFails_iff _ _, ?_, by decide, by rfl, by decide, by decide⟩
  intro h
  unfold hdfsInit
  rw [if_pos h]

/-- C5 witness. -/
theorem check_url_rejects_iff_witness :
    hdfsInit "s3://bucket/key".toList none none true ⟨0⟩ = .error .invalidLocation := by
  exact (check_url_rejects_iff "s3://bucket/key".toList none none ⟨0⟩).2.1 (by decide)

/-- C6 counterexample: the claim says an explicitly supplied port always
takes precedence over the URL-parsed port, but `port = port or url_port or 0`
uses Python truthiness, so an explicit `port=0` against
`"hdfs://nn:8020/a/b"` produces effective port `8020`, not `0`. -/
theorem hdfs_init_explicit_port_zero_ignored :
    (hdfsInit "hdfs://nn:8020/a/b".toList none (some 0) true ⟨0⟩).map
        (fun p => p.1.port) = .ok 8020
    ∧ (8020 : Nat) ≠ 0 := by
  exact ⟨by rfl, by decide⟩

/-- C6 (amended): the effective host is the explicit host argument when
supplied and non-empty, else the URL host when present and non-empty, else
`"default"`; the effective port is the explicit port argument when supplied
and non-zero, else the URL port when present, else `0`.  Explicit arguments
take precedence only when truthy, because the merger uses Python `or`. -/
theorem hdfs_init_host_port_merge (url : PyStr) (hostArg : Option PyStr)
    (portArg : Option Nat) (log : ConnLog) (st : HDFSStoreState) (log' : ConnLog)
    (h : hdfsInit url hostArg portArg true log = .ok (st, log')) :
    ((∀ hst, hostArg = some hst → hst ≠ [] → st.host = hst)
     ∧ ((hostArg = none ∨ hostArg = some []) →
         ∀ uh, (parse_url url).host = some uh → uh ≠ [] → st.host = uh)
     ∧ ((hostArg = none ∨ hostArg = some []) →
         ((parse_url url).host = none ∨ (parse_url url).host = some []) →
         st.host = "default".toList))
    ∧ ((∀ pn, portArg = some pn → pn ≠ 0 → st.port = pn)
     ∧ ((portArg = none ∨ portArg = some 0) →
         ∀ un, (parse_url url).port = some un → st.port = un)
     ∧ ((portArg = none ∨ portArg = some 0) → (parse_url url).port = none →
         st.port = 0)) := by
  obtain ⟨hhost, hport, _, _⟩ := hdfsInit_ok_fields url hostArg portArg log st log' h
  refine ⟨⟨?_, ?_, ?_⟩, ⟨?_, ?_, ?_⟩⟩
  · intro hst heq hne
    rw [hhost, heq, pyOrS_truthy _ _ hne]
  · intro hfal uh huh hne
    rw [hhost, pyOrS_falsy _ _ hfal, huh, pyOrS_truthy _ _ hne]
  · intro hfal hufal
    rw [hhost, pyOrS_falsy _ _ hfal, pyOrS_falsy _ _ hufal]
  · intro pn heq hne
    rw [hport, heq, pyOrN_truthy _ _ hne]
  · intro hfal un hun
    rw [hport, pyOrN_falsy _ _ hfal, hun, pyOrN_url]
  · intro hfal hufal
    rw [hport, pyOrN_falsy _ _ hfal, hufal]
    rfl

/-- C6 witness: defaults applied on a bare path with no explicit args. -/
theorem hdfs_init_host_port_merge_witness :
    (sampleStore 0).host = "default".toList ∧ (sampleStore 0).port = 0 := by
  have h := hdfs_init_host_port_merge "/a/b".toList none none ⟨0⟩
    (sampleStore 0) ⟨1⟩ (by rfl)
  exact ⟨h.1.2.2 (Or.inl rfl) (Or.inl (by decide)),
    h.2.2.2 (Or.inl rfl) (by decide)⟩

/-- C9: `HDFSStore.__init__` connects exactly once, eagerly
(`self._hdfs = self._get_filesystem_fn()()`), `get_filesystem` returns that
same handle without opening a new connection, and an unreachable backend
fails the construction itself (provided the URL passed validation). -/
theorem hdfs_init_eager_connect_once (url : PyStr) (hostArg : Option PyStr)
    (portArg : Option Nat) (log log₂ : ConnLog) (st : HDFSStoreState) (log' : ConnLog) :
    (hdfsInit url hostArg portArg true log = .ok (st, log') →
      log'.calls = log.calls + 1 ∧ st.hdfs = log.calls
      ∧ getFilesystem st log₂ = (st.hdfs, log₂))
    ∧ (checkUrlFails (parse_url url).pfx (parse_url url).path = false →
      hdfsInit url hostArg portArg false log = .error .backendUnavailable) := by
  constructor
  · intro h
    obtain ⟨_, _, hh, hl⟩ := hdfsInit_ok_fields url hostArg portArg log st log' h
    exact ⟨by rw [hl], hh, rfl⟩
  · intro h
    unfold hdfsInit
    rw [if_neg (by rw [h]; exact Bool.false_ne_true)]
    rfl

/-- C9 witness. -/
theorem hdfs_init_eager_connect_once_witness :
    ((⟨42⟩ : ConnLog).calls = (⟨41⟩ : ConnLog).calls + 1
      ∧ (sampleStore 41).hdfs = (⟨41⟩ : ConnLog).calls
      ∧ getFilesystem (sampleStore 41) ⟨7⟩ = ((sampleStore 41).hdfs, ⟨7⟩))
    ∧ hdfsInit "/a/b".toList none none false ⟨41⟩ = .error .backendUnavailable := by
  have h := hdfs_init_eager_connect_once "/a/b".toList none none ⟨41⟩ ⟨7⟩
    (sampleStore 41) ⟨42⟩
  exact ⟨h.1 (by rfl), h.2 (by decide)⟩

/-- C1: a visited file is uploaded iff its local path is not yet a ledger
key or its current mtime is strictly greater than the recorded one; hence a
second sync call with unchanged mtimes uploads nothing, and advancing the
mtime of exactly one file `f1` between two calls re-uploads exactly `f1`. -/
theorem sync_upload_iff_new_or_newer (root lrp : PyStr)
    (walk : List (PyStr × List PyStr)) (m m₂ : PyStr → Int) (st : SyncState)
    (log : ConnLog) (f1 : PyStr × PyStr)
    (hnd : ((walkFiles root lrp walk).map Prod.fst).Nodup) :
    (∀ p ∈ walkFiles root lrp walk,
      (p ∈ (syncCall m (fun _ => true) root lrp walk st log).uploads
        ↔ (st.uploaded p.1 = none ∨ ∃ last, st.uploaded p.1 = some last ∧ last < m p.1)))
    ∧ ((syncCall m (fun _ => true) root lrp walk
          (syncCall m (fun _ => true) root lrp walk initSyncState log).state
          (syncCall m (fun _ => true) root lrp walk initSyncState log).log).uploads = [])
    ∧ (f1 ∈ walkFiles root lrp walk →
        (∀ lp, lp ≠ f1.1 → m₂ lp = m lp) → m f1.1 < m₂ f1.1 →
        (syncCall m₂ (fun _ => true) root lrp walk
          (syncCall m (fun _ => true) root lrp walk initSyncState log).state
          (syncCall m (fun _ => true) root lrp walk initSyncState log).log).uploads = [f1]) := by
  have h1 := syncFlat_success m (walkFiles root lrp walk) emptyLedger hnd
  have hu1 : (syncCall m (fun _ => true) root lrp walk initSyncState log).state.uploaded
      = (syncFlat m (fun _ => true) (walkFiles root lrp walk) emptyLedger).1 := by
    rw [syncCall_uploaded]
    rfl
  have hafter : ∀ p ∈ walkFiles root lrp walk,
      (syncFlat m (fun _ => true) (walkFiles root lrp walk) emptyLedger).1 p.1
        = some (m p.1) := by
    intro p hp
    have hx := h1.2.2.2 p hp
    rw [shouldUp_empty] at hx
    simpa [emptyLedger] using hx
  refine ⟨?_, ?_, ?_⟩
  · intro p hp
    have hsucc := syncFlat_success m (walkFiles root lrp walk) st.uploaded hnd
    rw [syncCall_uploads, hsucc.2.1, List.mem_filter]
    constructor
    · rintro ⟨-, hdec⟩
      exact (shouldUp_iff m st.uploaded p.1).mp hdec
    · intro hcond
      exact ⟨hp, (shouldUp_iff m st.uploaded p.1).mpr hcond⟩
  · rw [syncCall_uploads, hu1]
    have hsucc := syncFlat_success m (walkFiles root lrp walk)
      (syncFlat m (fun _ => true) (walkFiles root lrp walk) emptyLedger).1 hnd
    rw [hsucc.2.1]
    apply List.filter_eq_nil_iff.mpr
    intro p hp
    simp [shouldUp, hafter p hp]
  · intro hf1 hm2 hlt
    rw [syncCall_uploads, hu1]
    have hsucc := syncFlat_success m₂ (walkFiles root lrp walk)
      (syncFlat m (fun _ => true) (walkFiles root lrp walk) emptyLedger).1 hnd
    rw [hsucc.2.1]
    rw [List.filter_congr (q := fun p => decide (p.1 = f1.1)) ?_]
    · exact filter_key_single f1 (walkFiles root lrp walk) hnd hf1
    · intro p hp
      by_cases hpe : p.1 = f1.1
      · have haf1 : (syncFlat m (fun _ => true) (walkFiles root lrp walk) emptyLedger).1 f1.1
            = some (m f1.1) := by rw [← hpe]; exact hafter p hp
        simp [shouldUp, hpe, haf1, hlt]
      · have hme : m₂ p.1 = m p.1 := hm2 p.1 hpe
        simp [shouldUp, hafter p hp, hpe, hme]

/-- C1 witness: two files, fresh session; second call with unchanged mtimes
uploads nothing; after touching only `/t/a`, the second call uploads exactly
`/t/a`. -/
theorem sync_upload_iff_new_or_newer_witness :
    ((syncCall (fun lp => if lp = "/t/a".toList then 1 else 2) (fun _ => true)
        "/r".toList "/t".toList [("/t".toList, ["a".toList, "b".toList])]
        (syncCall (fun lp => if lp = "/t/a".toList then 1 else 2) (fun _ => true)
          "/r".toList "/t".toList [("/t".toList, ["a".toList, "b".toList])]
          initSyncState ⟨0⟩).state
        (syncCall (fun lp => if lp = "/t/a".toList then 1 else 2) (fun _ => true)
          "/r".toList "/t".toList [("/t".toList, ["a".toList, "b".toList])]
          initSyncState ⟨0⟩).log).uploads = [])
    ∧ (syncCall (fun lp => if lp = "/t/a".toList then 5 else 2) (fun _ => true)
        "/r".toList "/t".toList [("/t".toList, ["a".toList, "b".toList])]
        (syncCall (fun lp => if lp = "/t/a".toList then 1 else 2) (fun _ => true)
          "/r".toList "/t".toList [("/t".toList, ["a".toList, "b".toList])]
          initSyncState ⟨0⟩).state
        (syncCall (fun lp => if lp = "/t/a".toList then 1 else 2) (fun _ => true)
          "/r".toList "/t".toList [("/t".toList, ["a".toList, "b".toList])]
          initSyncState ⟨0⟩).log).uploads = [("/t/a".toList, "/r/a".toList)] := by
  have h := sync_upload_iff_new_or_newer "/r".toList "/t".toList
    [("/t".toList, ["a".toList, "b".toList])]
    (fun lp => if lp = "/t/a".toList then 1 else 2)
    (fun lp => if lp = "/t/a".toList then 5 else 2)
    initSyncState ⟨0⟩ ("/t/a".toList, "/r/a".toList) (by decide)
  exact ⟨h.2.1, h.2.2 (by decide) (fun lp hlp => by
      show (if lp = "/t/a".toList then (5:Int) else 2) = (if lp = "/t/a".toList then 1 else 2)
      rw [if_neg hlp, if_neg hlp]) (by decide)⟩

/-- C2: when an upload fails, the failing file's ledger entry is not
added or updated and the rest of the walk is aborted, while entries
committed for files uploaded earlier in the same call are retained; in a
two-file walk where `f1` uploads and `f2` fails on call `N`, the retry call
`N+1` uploads only `f2`, and `f1` is uploaded exactly once across both. -/
theorem sync_upload_failure_aborts (root lrp : PyStr)
    (walk : List (PyStr × List PyStr)) (m : PyStr → Int) (ok : PyStr → Bool)
    (st : SyncState) (log : ConnLog) (flp l1 r1 l2 r2 : PyStr)
    (hnd : ((walkFiles root lrp walk).map Prod.fst).Nodup) :
    ((syncCall m ok root lrp walk st log).failed = some flp →
      ((syncCall m ok root lrp walk st log).state.uploaded flp = st.uploaded flp
       ∧ flp ∉ (syncCall m ok root lrp walk st log).uploads.map Prod.fst
       ∧ (∀ p ∈ (syncCall m ok root lrp walk st log).uploads,
            (syncCall m ok root lrp walk st log).state.uploaded p.1 = some (m p.1))
       ∧ ∃ pre frp post, walkFiles root lrp walk = pre ++ (flp, frp) :: post
            ∧ ok frp = false
            ∧ syncFlat m ok pre st.uploaded
                = ((syncCall m ok root lrp walk st log).state.uploaded,
                   (syncCall m ok root lrp walk st log).uploads, none)))
    ∧ (walkFiles root lrp walk = [(l1, r1), (l2, r2)] → l1 ≠ l2 →
        ok r1 = true → ok r2 = false →
        (syncCall m ok root lrp walk initSyncState log).uploads = [(l1, r1)]
        ∧ (syncCall m ok root lrp walk initSyncState log).failed = some l2
        ∧ (syncCall m (fun _ => true) root lrp walk
            (syncCall m ok root lrp walk initSyncState log).state
            (syncCall m ok root lrp walk initSyncState log).log).uploads = [(l2, r2)]
        ∧ ((syncCall m ok root lrp walk initSyncState log).uploads
            ++ (syncCall m (fun _ => true) root lrp walk
                 (syncCall m ok root lrp walk initSyncState log).state
                 (syncCall m ok root lrp walk initSyncState log).log).uploads).count
             (l1, r1) = 1) := by
  constructor
  · intro hf
    rw [syncCall_failed] at hf
    obtain ⟨h1, h2, h3, _, pre, frp, post, hsplit, hfrp, _, hpre⟩ :=
      syncFlat_abort m ok (walkFiles root lrp walk) st.uploaded hnd flp hf
    refine ⟨?_, ?_, ?_, pre, frp, post, hsplit, hfrp, ?_⟩
    · rw [syncCall_uploaded]
      exact h1
    · rw [syncCall_uploads]
      exact h2
    · intro p hp
      rw [syncCall_uploaded]
      exact h3 p (by rwa [syncCall_uploads] at hp)
    · rw [syncCall_uploaded, syncCall_uploads]
      exact hpre
  · intro hwf hne hok1 hok2
    have hne21 : l2 ≠ l1 := fun h => hne h.symm
    have h2 : shouldUp m (ledgerSet emptyLedger l1 (m l1)) l2 = true := by
      rw [shouldUp_ledgerSet_ne m emptyLedger l1 (m l1) hne21]
      exact shouldUp_empty m l2
    have hcall1 : syncFlat m ok [(l1, r1), (l2, r2)] emptyLedger
        = (ledgerSet emptyLedger l1 (m l1), [(l1, r1)], some l2) := by
      simp [syncFlat, shouldUp_empty, hok1, h2, hok2]
    have hs1 : shouldUp m (ledgerSet emptyLedger l1 (m l1)) l1 = false := by
      simp [shouldUp, ledgerSet_same emptyLedger l1 (m l1)]
    have hcall2 : syncFlat m (fun _ => true) [(l1, r1), (l2, r2)]
          (ledgerSet emptyLedger l1 (m l1))
        = (ledgerSet (ledgerSet emptyLedger l1 (m l1)) l2 (m l2), [(l2, r2)], none) := by
      simp [syncFlat, hs1, h2]
    have hu0 : initSyncState.uploaded = emptyLedger := rfl
    have hup1 : (syncCall m ok root lrp walk initSyncState log).uploads = [(l1, r1)] := by
      rw [syncCall_uploads, hwf, hu0, hcall1]
    have hfail1 : (syncCall m ok root lrp walk initSyncState log).failed = some l2 := by
      rw [syncCall_failed, hwf, hu0, hcall1]
    have hled1 : (syncCall m ok root lrp walk initSyncState log).state.uploaded
        = ledgerSet emptyLedger l1 (m l1) := by
      rw [syncCall_uploaded, hwf, hu0, hcall1]
    have hup2 : (syncCall m (fun _ => true) root lrp walk
        (syncCall m ok root lrp walk initSyncState log).state
        (syncCall m ok root lrp walk initSyncState log).log).uploads = [(l2, r2)] := by
      rw [syncCall_uploads, hwf, hled1, hcall2]
    refine ⟨hup1, hfail1, hup2, ?_⟩
    rw [hup1, hup2]
    have hpne : ((l2, r2) : PyStr × PyStr) ≠ (l1, r1) := by
      intro h
      exact hne21 (congrArg Prod.fst h)
    simp [List.count_cons, hpne]

/-- C2 witness: concrete two-file scenario with a failing second upload. -/
theorem sync_upload_failure_aborts_witness :
    ((syncCall (fun _ => (3:Int)) (fun rp => rp != "/r/b".toList) "/r".toList "/t".toList
        [("/t".toList, ["a".toList, "b".toList])] initSyncState ⟨0⟩).uploads
      ++ (syncCall (fun _ => (3:Int)) (fun _ => true) "/r".toList "/t".toList
           [("/t".toList, ["a".toList, "b".toList])]
           (syncCall (fun _ => (3:Int)) (fun rp => rp != "/r/b".toList) "/r".toList
             "/t".toList [("/t".toList, ["a".toList, "b".toList])] initSyncState ⟨0⟩).state
           (syncCall (fun _ => (3:Int)) (fun rp => rp != "/r/b".toList) "/r".toList
             "/t".toList [("/t".toList, ["a".toList, "b".toList])] initSyncState ⟨0⟩).log).uploads).count
        ("/t/a".toList, "/r/a".toList) = 1 := by
  have h := sync_upload_failure_aborts "/r".toList "/t".toList
    [("/t".toList, ["a".toList, "b".toList])] (fun _ => (3:Int))
    (fun rp => rp != "/r/b".toList) initSyncState ⟨0⟩
    "/t/b".toList "/t/a".toList "/r/a".toList "/t/b".toList "/r/b".toList (by decide)
  exact (h.2 (by decide) (by decide) (by decide) (by decide)).2.2.2

/-- C3: a file at `<scratch_root>/<rel>/<file>` is re-rooted by stripping
the scratch-root prefix plus one separator from its directory and joining
the remainder onto the run's remote root (the store path prefix joined with
`run_id`), so it uploads to `<store_prefix>/<run_id>/<rel>/<file>`. -/
theorem sync_remote_path_mirrors (pfxPath runId lrp rel file : PyStr)
    (m : PyStr → Int) (log : ConnLog)
    (hrel0 : rel ≠ []) (hrel1 : rel.head? ≠ some '/') (hrel2 : rel.getLast? ≠ some '/')
    (hfile : file.head? ≠ some '/')
    (hpfx0 : pfxPath ≠ []) (hpfx1 : pfxPath.getLast? ≠ some '/')
    (hrun0 : runId ≠ []) (hrun1 : runId.head? ≠ some '/')
    (hrun2 : runId.getLast? ≠ some '/') :
    walkFiles (get_run_path pfxPath runId) lrp [(lrp ++ '/' :: rel, [file])]
      = [((lrp ++ '/' :: rel) ++ '/' :: file,
          pfxPath ++ '/' :: runId ++ '/' :: rel ++ '/' :: file)]
    ∧ (syncCall m (fun _ => true) (get_run_path pfxPath runId) lrp
        [(lrp ++ '/' :: rel, [file])] initSyncState log).uploads
      = [((lrp ++ '/' :: rel) ++ '/' :: file,
          pfxPath ++ '/' :: runId ++ '/' :: rel ++ '/' :: file)] := by
  have hroot : get_run_path pfxPath runId = pfxPath ++ '/' :: runId :=
    osPathJoin_rel pfxPath runId hrun1 hpfx0 hpfx1
  have hrootne : pfxPath ++ '/' :: runId ≠ [] := by simp
  have hrootlast : (pfxPath ++ '/' :: runId).getLast? ≠ some '/' := by
    rw [getLast?_append_cons pfxPath '/' runId hrun0]
    exact hrun2
  have hdirne : lrp ++ '/' :: rel ≠ [] := by simp
  have hdirlast : (lrp ++ '/' :: rel).getLast? ≠ some '/' := by
    rw [getLast?_append_cons lrp '/' rel hrel0]
    exact hrel2
  have hrellast : ((pfxPath ++ '/' :: runId) ++ '/' :: rel).getLast? ≠ some '/' := by
    rw [getLast?_append_cons (pfxPath ++ '/' :: runId) '/' rel hrel0]
    exact hrel2
  have hwf : walkFiles (get_run_path pfxPath runId) lrp [(lrp ++ '/' :: rel, [file])]
      = [((lrp ++ '/' :: rel) ++ '/' :: file,
          pfxPath ++ '/' :: runId ++ '/' :: rel ++ '/' :: file)] := by
    simp only [walkFiles, List.map_cons, List.map_nil, List.append_nil]
    rw [drop_scratch, hroot,
      osPathJoin_rel (lrp ++ '/' :: rel) file hfile hdirne hdirlast,
      osPathJoin_rel (pfxPath ++ '/' :: runId) rel hrel1 hrootne hrootlast,
      osPathJoin_rel ((pfxPath ++ '/' :: runId) ++ '/' :: rel) file hfile
        (by simp) hrellast]
  refine ⟨hwf, ?_⟩
  rw [syncCall_uploads, hwf]
  simp [syncFlat, initSyncState, emptyLedger, shouldUp]

/-- C3 witness: `<pfx>/run42/sub/dir/file.txt` for a file at
`<scratch>/sub/dir/file.txt`. -/
theorem sync_remote_path_mirrors_witness :
    walkFiles (get_run_path "/s".toList "run42".toList) "/t".toList
        [("/t".toList ++ '/' :: "sub/dir".toList, ["file.txt".toList])]
      = [(("/t".toList ++ '/' :: "sub/dir".toList) ++ '/' :: "file.txt".toList,
          "/s".toList ++ '/' :: "run42".toList ++ '/' :: "sub/dir".toList
            ++ '/' :: "file.txt".toList)] := by
  exact (sync_remote_path_mirrors "/s".toList "run42".toList "/t".toList
    "sub/dir".toList "file.txt".toList (fun _ => 0) ⟨0⟩
    (by decide) (by decide) (by decide) (by decide) (by decide) (by decide)
    (by decide) (by decide) (by decide)).1

/-- C7: constructing a sync session makes no connection; the first call
connects exactly once, caching the handle, and every later call of the
session reuses it unchanged, so a session makes at most one connection
regardless of how many sync calls run. -/
theorem sync_connects_lazily_once (c : CallSpec) (calls : List CallSpec)
    (st : SyncState) (log : ConnLog) (h : Nat) :
    (initSyncState.fs = none ∧ runCalls initSyncState log [] = (initSyncState, log))
    ∧ ((syncCall c.m c.ok c.root c.lrp c.walk initSyncState log).state.fs = some log.calls
       ∧ (syncCall c.m c.ok c.root c.lrp c.walk initSyncState log).log.calls = log.calls + 1)
    ∧ (st.fs = some h →
        (syncCall c.m c.ok c.root c.lrp c.walk st log).state.fs = some h
        ∧ (syncCall c.m c.ok c.root c.lrp c.walk st log).log = log)
    ∧ ((runCalls initSyncState log (c :: calls)).1.fs = some log.calls
       ∧ (runCalls initSyncState log (c :: calls)).2.calls = log.calls + 1) := by
  obtain ⟨hf, hl⟩ := syncCall_conn_first c.m c.ok c.root c.lrp c.walk initSyncState log rfl
  obtain ⟨hc1, hc2⟩ := runCalls_cached calls
    (syncCall c.m c.ok c.root c.lrp c.walk initSyncState log).state
    (syncCall c.m c.ok c.root c.lrp c.walk initSyncState log).log log.calls hf
  refine ⟨⟨rfl, rfl⟩, ⟨hf, by rw [hl]⟩, ?_, ?_, ?_⟩
  · intro hst
    exact syncCall_conn_cached c.m c.ok c.root c.lrp c.walk st log hst
  · rw [runCalls]
    exact hc1
  · rw [runCalls, hc2, hl]

/-- C7 witness: two calls in one session, one connection total. -/
theorem sync_connects_lazily_once_witness :
    ((runCalls initSyncState ⟨0⟩ [sampleCall, sampleCall]).1.fs = some 0
      ∧ (runCalls initSyncState ⟨0⟩ [sampleCall, sampleCall]).2.calls = 0 + 1)
    ∧ ((syncCall sampleCall.m sampleCall.ok sampleCall.root sampleCall.lrp
          sampleCall.walk ⟨some 5, emptyLedger⟩ ⟨0⟩).state.fs = some 5
      ∧ (syncCall sampleCall.m sampleCall.ok sampleCall.root sampleCall.lrp
          sampleCall.walk ⟨some 5, emptyLedger⟩ ⟨0⟩).log = ⟨0⟩) := by
  have hw := sync_connects_lazily_once sampleCall [sampleCall]
    ⟨some 5, emptyLedger⟩ ⟨0⟩ 5
  exact ⟨hw.2.2.2, hw.2.2.1 rfl⟩

/-- C8: the scratch-directory scope creates a fresh directory on entry and
recursively deletes it on every exit path — the body's normal result or
exception is propagated, and afterwards neither the directory nor anything
under it exists. -/
theorem scratch_dir_scope_cleanup (E A : Type) (fresh : PyStr)
    (body : PyStr → FsState → FsState × Except E A) (s₀ : FsState)
    (hfresh : fresh ∉ s₀.dirs) :
    (mkdtemp fresh s₀).dirs = fresh :: s₀.dirs
    ∧ (localRunPath fresh body s₀).2 = (body fresh (mkdtemp fresh s₀)).2
    ∧ fresh ∉ (localRunPath fresh body s₀).1.dirs
    ∧ (∀ p ∈ (localRunPath fresh body s₀).1.dirs, isUnder fresh p = false) := by
  refine ⟨rfl, rfl, ?_, ?_⟩
  · intro hmem
    have hx := (List.mem_filter.mp hmem).2
    simp [isUnder] at hx
  · intro p hp
    have hx := (List.mem_filter.mp hp).2
    simpa using hx

/-- C8 witness: a body that creates a file under the scratch directory and
then raises; the whole subtree is gone afterwards and the error propagates. -/
theorem scratch_dir_scope_cleanup_witness :
    (mkdtemp "/tmp/s".toList ⟨["/keep".toList]⟩).dirs
        = "/tmp/s".toList :: ["/keep".toList]
    ∧ (localRunPath "/tmp/s".toList sampleBody ⟨["/keep".toList]⟩).2
      = (sampleBody "/tmp/s".toList (mkdtemp "/tmp/s".toList ⟨["/keep".toList]⟩)).2
    ∧ "/tmp/s".toList ∉ (localRunPath "/tmp/s".toList sampleBody ⟨["/keep".toList]⟩).1.dirs
    ∧ (∀ p ∈ (localRunPath "/tmp/s".toList sampleBody ⟨["/keep".toList]⟩).1.dirs,
        isUnder "/tmp/s".toList p = false) := by
  exact scratch_dir_scope_cleanup Unit Unit "/tmp/s".toList sampleBody
    ⟨["/keep".toList]⟩ (by decide)
